import Mathlib

/-!
Verification of the depth-chart scraping pipeline (`src/main.py`).

Text is modelled as the sequence of Unicode code points of a Python string
(`Txt := List Nat`); `txt` converts a Lean string literal to that form.
The Python functions `_smart_title`, `_normalize_player`, `parse_team_offense`,
`format_kickoff`, `safe_slug` and `_bold_lines` are embedded as executable
Lean functions over this representation, following the source line by line.
Character classes (whitespace, digits, letters) follow the ASCII ranges used
by the scraped data.
-/

/-- Text as Python sees it: a sequence of Unicode code points. -/
abbrev Txt := List Nat

/-- Code points of a Lean string literal. -/
def txt (s : String) : Txt := s.data.map Char.toNat

/-- ASCII whitespace, as matched by Python `str.split`, `str.strip` and `\s`. -/
def isSpaceN (n : Nat) : Bool := n = 32 || n = 9 || n = 10 || n = 13 || n = 11 || n = 12

/-- Decimal digit (`str.isdigit` on ASCII data). -/
def isDigitN (n : Nat) : Bool := 48 ≤ n && n ≤ 57

def isUpperN (n : Nat) : Bool := 65 ≤ n && n ≤ 90

def isLowerN (n : Nat) : Bool := 97 ≤ n && n ≤ 122

def isAlphaN (n : Nat) : Bool := isUpperN n || isLowerN n

/-- Word character for the regex `\b` boundary: `[A-Za-z0-9_]`. -/
def isWordN (n : Nat) : Bool := isAlphaN n || isDigitN n || n = 95

/-- ASCII lower-casing of one code point (`str.lower`). -/
def lowerN (n : Nat) : Nat := if isUpperN n then n + 32 else n

/-- ASCII upper-casing of one code point (`str.upper`). -/
def upperN (n : Nat) : Nat := if isLowerN n then n - 32 else n

def lowerT (l : Txt) : Txt := l.map lowerN

def upperT (l : Txt) : Txt := l.map upperN

/-- Python `s.strip()`: drop leading and trailing whitespace. -/
def stripT (l : Txt) : Txt :=
  ((l.dropWhile isSpaceN).reverse.dropWhile isSpaceN).reverse

/-- Python `s.replace("\xa0", " ")`: non-breaking spaces become ordinary spaces. -/
def repNbsp (l : Txt) : Txt := l.map (fun n => if n = 160 then 32 else n)

/-- Split on whitespace runs, keeping possibly-empty pieces (helper for `tokensT`). -/
def splitSp (l : Txt) : List Txt :=
  l.foldr
    (fun c acc =>
      if isSpaceN c then [] :: acc
      else
        match acc with
        | [] => [[c]]
        | t :: ts => (c :: t) :: ts)
    []

/-- Python `s.split()`: maximal non-whitespace chunks, in order. -/
def tokensT (l : Txt) : List Txt := (splitSp l).filter (fun t => !t.isEmpty)

/-- Python `" ".join(ts)`. -/
def joinSp : List Txt → Txt
  | [] => []
  | [t] => t
  | t :: ts => t ++ 32 :: joinSp ts

/-- Python `re.sub(r"\s+", " ", l).strip()`: collapse whitespace runs and trim. -/
def squeeze (l : Txt) : Txt := joinSp (tokensT l)

/-- A token that stops the keep-scan of `_normalize_player`:
it contains a digit, contains a slash, or ends with a caret. -/
def badTok (t : Txt) : Bool :=
  t.any isDigitN || t.contains 47 || (t.getLast? == some 94)

/-- Keep tokens up to (excluding) the first bad one, as the `for`/`break`
loop of `_normalize_player` does. -/
def keepToks : List Txt → List Txt
  | [] => []
  | t :: ts => if badTok t then [] else t :: keepToks ts

/-- Python `s2.split(",", 1)` followed by the `f"{rest.strip()} {last.strip()}"`
reassembly, applied only when a comma is present. -/
def commaSplitReorder (l : Txt) : Txt :=
  if l.contains 44 then
    let last := l.takeWhile (fun c => c != 44)
    let rest := (l.dropWhile (fun c => c != 44)).tail
    stripT rest ++ 32 :: stripT last
  else l

/-- Python `str.title()` on code points: a letter following a non-cased character is
upper-cased, a letter following a cased character is lower-cased.  The Boolean
argument records whether the previous character was cased. -/
def titleGo : Bool → Txt → Txt
  | _, [] => []
  | pc, n :: ns =>
    if isAlphaN n then (if pc then lowerN n else upperN n) :: titleGo true ns
    else n :: titleGo false ns

def titleT (l : Txt) : Txt := titleGo false l

/-- Python `re.sub(r"\bMc([a-z])", lambda m: "Mc" + m.group(1).upper(), t)`:
left-to-right non-overlapping scan; the Boolean records whether the previous
character was a word character (for the `\b` boundary). -/
def fixMc : Bool → Txt → Txt
  | pw, a :: b :: k :: rest =>
    if !pw && a = 77 && b = 99 && isLowerN k then
      77 :: 99 :: upperN k :: fixMc true rest
    else a :: fixMc (isWordN a) (b :: k :: rest)
  | _, l => l

/-- Python `re.sub(r"\bMac([a-z])", ...)`, as `fixMc`. -/
def fixMac : Bool → Txt → Txt
  | pw, a :: b :: c :: k :: rest =>
    if !pw && a = 77 && b = 97 && c = 99 && isLowerN k then
      77 :: 97 :: 99 :: upperN k :: fixMac true rest
    else a :: fixMac (isWordN a) (b :: c :: k :: rest)
  | _, l => l

/-- Python `re.sub(r"\bO'([a-z])", ...)`, as `fixMc` (39 is the apostrophe). -/
def fixO : Bool → Txt → Txt
  | pw, a :: b :: k :: rest =>
    if !pw && a = 79 && b = 39 && isLowerN k then
      79 :: 39 :: upperN k :: fixO true rest
    else a :: fixO (isWordN a) (b :: k :: rest)
  | _, l => l

/-- Python `_smart_title` from `src/main.py`: strip, `title()`, then the three
pattern fixes for `Mc`, `Mac` and `O'`, in that order. -/
def smartTitle (l : Txt) : Txt :=
  let t := stripT l
  if t.isEmpty then t
  else fixO false (fixMac false (fixMc false (titleT t)))

/-- Python `_normalize_player` from `src/main.py`. -/
def normalizeN (raw : Txt) : Txt :=
  let s := stripT (repNbsp raw)
  if s.isEmpty then []
  else
    let keep := keepToks (tokensT s)
    let s2 := stripT (joinSp keep)
    let s2 := if s2.isEmpty then s else s2
    let name := commaSplitReorder s2
    smartTitle (squeeze name)

/-! ## Roster section parser (`parse_team_offense`) -/

/-- One `<tr>` of the depth-chart table.  `hdr` is the text of the row's
`td.dt-sh` section-header cell (as `get_text(" ", strip=True)` returns it),
if the row has one; `cells` are the texts of all `td` cells (before the
`get_text(strip=True)` stripping, which the scan applies); `anchors` are the
raw texts of all `<a>` elements in the row. -/
structure Row where
  hdr : Option Txt
  cells : List Txt
  anchors : List Txt

/-- Python `quarterback / running back / wide receiver / tight end` name lists. -/
structure OffenseDepth where
  qb : List Txt
  rb : List Txt
  wr : List Txt
  te : List Txt
deriving DecidableEq

def emptyOff : OffenseDepth := ⟨[], [], [], []⟩

/-- Substring test (`a in b` on Python strings). -/
def isSubT (a : Txt) : Txt → Bool
  | [] => a.isEmpty
  | c :: t => a.isPrefixOf (c :: t) || isSubT a t

/-- The five stop markers of the sibling-row scan. -/
def stopMarks : List Txt :=
  [txt "defense -", txt "special teams -", txt "practice squad -",
   txt "reserves -", txt "offense -"]

/-- Python `hdr_txt.startswith(prefix)` for one of the five stop markers,
on the lower-cased header text. -/
def isStopHdrT (t : Txt) : Bool :=
  stopMarks.any (fun p => p.isPrefixOf (lowerT t))

/-- Python `txt.lower().startswith("offense - ") and team.lower() in txt.lower()`:
the condition selecting the team's offense header cell. -/
def isOffenseFor (team t : Txt) : Bool :=
  (txt "offense - ").isPrefixOf (lowerT t) && isSubT (lowerT team) (lowerT t)

/-- Whether a row's section-header cell matches the offense header for `team`. -/
def matchRow (team : Txt) (r : Row) : Bool :=
  match r.hdr with
  | some t => isOffenseFor team t
  | none => false

/-- Whether a row's section-header cell is a stop marker. -/
def rowIsStop (r : Row) : Bool :=
  match r.hdr with
  | some t => isStopHdrT t
  | none => false

/-- The normalized player names of a row:
`[_normalize_player(a.get_text()) for a in tr.select("a") if a.get_text(strip=True)]`
followed by dropping empties. -/
def playersOf (r : Row) : List Txt :=
  ((r.anchors.filter (fun a => !(stripT a).isEmpty)).map normalizeN).filter
    (fun p => !p.isEmpty)

/-- Scan state: the four result lists plus the `lwr`/`rwr`/`swr` locals of
`parse_team_offense` (`none` = Python `None`; note an empty string is a
possible assigned value). -/
structure ScanSt where
  res : OffenseDepth
  lwr : Option Txt
  rwr : Option Txt
  swr : Option Txt

def initSt : ScanSt := ⟨emptyOff, none, none, none⟩

/-- Python truthiness of the `lwr`/`rwr`/`swr` locals. -/
def truthy : Option Txt → Bool
  | none => false
  | some t => !t.isEmpty

/-- The body of the scan loop for one data row (everything after the
stop-header test in `parse_team_offense`). -/
def procRow (st : ScanSt) (r : Row) : ScanSt :=
  if r.cells.length < 4 then st
  else
    let pos := stripT (r.cells.getD 1 [])
    let players := playersOf r
    if pos = txt "QB" then { st with res := { st.res with qb := players } }
    else if pos = txt "RB" then { st with res := { st.res with rb := players } }
    else if pos = txt "TE" then { st with res := { st.res with te := players } }
    else if pos = txt "LWR" then { st with lwr := some (players.headD []) }
    else if pos = txt "RWR" then { st with rwr := some (players.headD []) }
    else if pos = txt "SWR" then { st with swr := some (players.headD []) }
    else if pos = txt "WR" && !(truthy st.lwr || truthy st.rwr || truthy st.swr) then
      if st.res.wr.isEmpty then { st with res := { st.res with wr := players.take 3 } }
      else st
    else st

/-- The `while True` sibling walk: stop at a stop-header row or at the end,
otherwise process the row and continue. -/
def scanRows : ScanSt → List Row → ScanSt
  | st, [] => st
  | st, r :: rs => if rowIsStop r then st else scanRows (procRow st r) rs

/-- The post-scan fix-up: if any positional starter is truthy, the WR list
becomes the truthy starters in left/right/slot order, capped at 3. -/
def finishWR (st : ScanSt) : OffenseDepth :=
  let wrs := (([st.lwr, st.rwr, st.swr].filterMap id).filter
    (fun w => !w.isEmpty))
  if !wrs.isEmpty then { st.res with wr := wrs.take 3 } else st.res

/-- Find the first row whose section-header cell matches the offense header
for `team`, and return the rows after it (the scan starts at the header row's
next sibling). -/
def findOffense (team : Txt) : List Row → Option (List Row)
  | [] => none
  | r :: rs =>
    match r.hdr with
    | some t => if isOffenseFor team t then some rs else findOffense team rs
    | none => findOffense team rs

/-- Python `parse_team_offense` from `src/main.py` (the document is the list of
table rows in order; each row carries at most one section-header cell). -/
def parse_team_offense (doc : List Row) (team : Txt) : OffenseDepth :=
  match findOffense team doc with
  | none => emptyOff
  | some rs => finishWR (scanRows initSt rs)

/-! ## Team lookup table used by the batch routine -/

/-- The 32-entry Fox-code → full-name table `TEAM_NAME`. -/
def TEAM_NAME : List (Txt × Txt) :=
  [(txt "ARI", txt "Arizona Cardinals"), (txt "ATL", txt "Atlanta Falcons"),
   (txt "BAL", txt "Baltimore Ravens"), (txt "BUF", txt "Buffalo Bills"),
   (txt "CAR", txt "Carolina Panthers"), (txt "CHI", txt "Chicago Bears"),
   (txt "CIN", txt "Cincinnati Bengals"), (txt "CLE", txt "Cleveland Browns"),
   (txt "DAL", txt "Dallas Cowboys"), (txt "DEN", txt "Denver Broncos"),
   (txt "DET", txt "Detroit Lions"), (txt "GB", txt "Green Bay Packers"),
   (txt "HOU", txt "Houston Texans"), (txt "IND", txt "Indianapolis Colts"),
   (txt "JAX", txt "Jacksonville Jaguars"), (txt "KC", txt "Kansas City Chiefs"),
   (txt "LAC", txt "Los Angeles Chargers"), (txt "LAR", txt "Los Angeles Rams"),
   (txt "LV", txt "Las Vegas Raiders"), (txt "MIA", txt "Miami Dolphins"),
   (txt "MIN", txt "Minnesota Vikings"), (txt "NE", txt "New England Patriots"),
   (txt "NO", txt "New Orleans Saints"), (txt "NYG", txt "New York Giants"),
   (txt "NYJ", txt "New York Jets"), (txt "PHI", txt "Philadelphia Eagles"),
   (txt "PIT", txt "Pittsburgh Steelers"), (txt "SEA", txt "Seattle Seahawks"),
   (txt "SF", txt "San Francisco 49ers"), (txt "TB", txt "Tampa Bay Buccaneers"),
   (txt "TEN", txt "Tennessee Titans"), (txt "WAS", txt "Washington Commanders")]

/-- Python `TEAM_NAME.get(abbr, "")` as used by `write_txt_templates_with_depth`. -/
def teamFullName (abbr : Txt) : Txt :=
  ((TEAM_NAME.find? (fun p => p.1 == abbr)).map Prod.snd).getD []

/-- The offense data the batch routine passes to the renderer for a game
side with team code `abbr` (the per-run cache is keyed by the full name and
only ever holds `parse_team_offense` results, so it is transparent). -/
def offenseForCode (doc : List Row) (abbr : Txt) : OffenseDepth :=
  parse_team_offense doc (teamFullName abbr)

/-! ## Kickoff formatting (`format_kickoff`) -/

/-- The fixed 12-entry `MONTHS` table (abbreviation → month number). -/
def MONTHS : List (Txt × Nat) :=
  [(txt "JAN", 1), (txt "FEB", 2), (txt "MAR", 3), (txt "APR", 4),
   (txt "MAY", 5), (txt "JUN", 6), (txt "JUL", 7), (txt "AUG", 8),
   (txt "SEP", 9), (txt "OCT", 10), (txt "NOV", 11), (txt "DEC", 12)]

/-- Python `dt.strftime('%B')`: full month name, months numbered from 1. -/
def monthName (m : Nat) : Txt :=
  ([txt "January", txt "February", txt "March", txt "April", txt "May",
    txt "June", txt "July", txt "August", txt "September", txt "October",
    txt "November", txt "December"]).getD (m - 1) []

/-- Gregorian leap year. -/
def isLeap (y : Nat) : Bool := (y % 4 == 0 && y % 100 != 0) || y % 400 == 0

/-- Days in a month (for `datetime`'s day-of-month validation). -/
def daysInMonth (y m : Nat) : Nat :=
  if m = 2 then (if isLeap y then 29 else 28)
  else if m = 4 || m = 6 || m = 9 || m = 11 then 30
  else 31

/-- Day of week by Sakamoto's method, 0 = Sunday (as `datetime` computes it). -/
def weekdayIdx (y m d : Nat) : Nat :=
  let t := [0, 3, 2, 5, 0, 3, 5, 1, 4, 6, 2, 4]
  let y2 := if m < 3 then y - 1 else y
  (y2 + y2 / 4 - y2 / 100 + y2 / 400 + t.getD (m - 1) 0 + d) % 7

/-- Python `dt.strftime('%A')`: full weekday name from the Sunday-based index. -/
def dayName (w : Nat) : Txt :=
  ([txt "Sunday", txt "Monday", txt "Tuesday", txt "Wednesday",
    txt "Thursday", txt "Friday", txt "Saturday"]).getD w []

/-- Decimal rendering of a natural number (`str(n)`). -/
def natTxt (n : Nat) : Txt := (Nat.toDigits 10 n).map Char.toNat

/-- One `str.replace(pat, " " + pat)` pass for a two-character pattern
(`"AM"` or `"PM"`): left-to-right, non-overlapping. -/
def insSpace2 (x y : Nat) : Txt → Txt
  | a :: b :: rest =>
    if a = x && b = y then 32 :: x :: y :: insSpace2 x y rest
    else a :: insSpace2 x y (b :: rest)
  | l => l

/-- Python `(time_local or "TBD").replace("AM", " AM").replace("PM", " PM")`. -/
def fmtTime (t : Txt) : Txt :=
  insSpace2 80 77 (insSpace2 65 77 (if t.isEmpty then txt "TBD" else t))

/-- Python `re.sub(r'^[A-Z]{3},\s*', '', label.strip(), flags=re.I)`:
drop a leading three-letter weekday abbreviation plus comma and spaces. -/
def dropWeekday (l : Txt) : Txt :=
  match l with
  | a :: b :: c :: d :: rest =>
    if isAlphaN a && isAlphaN b && isAlphaN c && d = 44 then
      rest.dropWhile isSpaceN
    else l
  | _ => l

/-- Python `int(day)` on an ASCII-digit token. -/
def parseIntT (l : Txt) : Option Nat :=
  if !l.isEmpty && l.all isDigitN then
    some (l.foldl (fun a d => a * 10 + (d - 48)) 0)
  else none

/-- The month/day extraction of `format_kickoff`: strip the weekday prefix,
split into exactly two tokens, look the first up in `MONTHS` (upper-cased)
and parse the second as an integer. -/
def kickParse (dateLabel : Txt) : Option (Nat × Nat) :=
  match tokensT (dropWeekday (stripT dateLabel)) with
  | [mTok, dTok] =>
    match MONTHS.find? (fun p => p.1 == upperT mTok), parseIntT dTok with
    | some p, some d => some (p.2, d)
    | _, _ => none
  | _ => none

/-- The `except`-branch string of `format_kickoff`:
`f"{date_label}, {season_year}, {tm} ET"`. -/
def kickFallback (dateLabel timeLocal : Txt) (seasonYear : Nat) : Txt :=
  dateLabel ++ txt ", " ++ natTxt seasonYear ++ txt ", " ++ fmtTime timeLocal ++ txt " ET"

/-- Python `format_kickoff` from `src/main.py`.  The `try` block is modelled by the
explicit parse (`kickParse`) and the `datetime` constructor's validity check;
any failure lands in the fallback string. -/
def format_kickoff (dateLabel timeLocal : Txt) (seasonYear : Nat) : Txt :=
  if dateLabel.isEmpty then
    txt "TBD, " ++ natTxt seasonYear ++ txt ", " ++ fmtTime timeLocal ++ txt " ET"
  else
    match kickParse dateLabel with
    | some (m, d) =>
      let year := if m = 1 || m = 2 then seasonYear + 1 else seasonYear
      if 1 ≤ year && year ≤ 9999 && 1 ≤ d && d ≤ daysInMonth year m then
        dayName (weekdayIdx year m d) ++ txt ", " ++ monthName m ++ txt " " ++
          natTxt d ++ txt ", " ++ natTxt year ++ txt ", " ++
          fmtTime timeLocal ++ txt " ET"
      else kickFallback dateLabel timeLocal seasonYear
    | none => kickFallback dateLabel timeLocal seasonYear

/-! ## Filename sanitizer (`safe_slug`) -/

/-- The character class `[A-Za-z0-9._-]` kept by `safe_slug`. -/
def slugOK (n : Nat) : Bool := isAlphaN n || isDigitN n || n = 46 || n = 95 || n = 45

/-- Python `re.sub(r'[^A-Za-z0-9._-]+', '_', s)`: each maximal run of characters
outside the class becomes one underscore.  The flag records whether we are
inside such a run (its underscore already emitted). -/
def collapseBad : Bool → Txt → Txt
  | _, [] => []
  | inBad, c :: cs =>
    if slugOK c then c :: collapseBad false cs
    else if inBad then collapseBad true cs
    else 95 :: collapseBad true cs

/-- Python `.strip('_')`: remove leading and trailing underscores. -/
def stripUnders (l : Txt) : Txt :=
  ((l.dropWhile (fun c => c == 95)).reverse.dropWhile (fun c => c == 95)).reverse

/-- Python `safe_slug` from `src/main.py`. -/
def safe_slug (l : Txt) : Txt := stripUnders (collapseBad false l)

/-! ## Fixed-count bold lines (`_bold_lines`) -/

/-- The list of lines built by `_bold_lines` before they are joined:
`names[:n] + [""] * max(0, n - len(names))`, each wrapped in `<b>…</b>`. -/
def bold_lines_list (names : List Txt) (n : Nat) : List Txt :=
  (names.take n ++ List.replicate (n - names.length) ([] : Txt)).map
    (fun nm => if nm.isEmpty then txt "<b></b>" else txt "<b>" ++ nm ++ txt "</b>")

/-- Python `_bold_lines` from `src/main.py`: the lines joined with newlines. -/
def bold_lines (names : List Txt) (n : Nat) : Txt :=
  List.intercalate [10] (bold_lines_list names n)

/-- The away running-back block of `render_game_html`:
`_bold_lines(away_off.get("rb", []), 3)`. -/
def away_rb_block (off : OffenseDepth) : Txt := bold_lines off.rb 3

/-- Whether a row's section-header cell begins (case-insensitively) with
`"offense - "`, for any team. -/
def offHdrAny (r : Row) : Bool :=
  match r.hdr with
  | some t => (txt "offense - ").isPrefixOf (lowerT t)
  | none => false

/-! ## Helper lemmas about the section scan -/

theorem isSubT_nil (l : Txt) : isSubT [] l = true := by
  induction l with
  | nil => rfl
  | cons c t ih => simp [isSubT, List.isPrefixOf, ih]

theorem matchRow_nil_team (r : Row) : matchRow [] r = offHdrAny r := by
  cases h : r.hdr with
  | none => simp [matchRow, offHdrAny, h]
  | some t => simp [matchRow, offHdrAny, h, isOffenseFor, lowerT, isSubT_nil]

theorem findOffense_append_no_match (team : Txt) (pre rest : List Row)
    (h : ∀ r ∈ pre, matchRow team r = false) :
    findOffense team (pre ++ rest) = findOffense team rest := by
  induction pre with
  | nil => rfl
  | cons r rs ih =>
    have hr := h r (List.mem_cons_self r rs)
    have ih2 := ih (fun r' hr' => h r' (List.mem_cons_of_mem r hr'))
    cases hh : r.hdr with
    | none => simpa [findOffense, hh] using ih2
    | some t =>
      have : isOffenseFor team t = false := by simpa [matchRow, hh] using hr
      simpa [findOffense, hh, this] using ih2

theorem findOffense_cons_match (team : Txt) (r : Row) (rest : List Row)
    (h : matchRow team r = true) :
    findOffense team (r :: rest) = some rest := by
  cases hh : r.hdr with
  | none => simp [matchRow, hh] at h
  | some t =>
    have : isOffenseFor team t = true := by simpa [matchRow, hh] using h
    simp [findOffense, hh, this]

theorem scanRows_stop_cons (st : ScanSt) (r : Row) (rs : List Row)
    (h : rowIsStop r = true) : scanRows st (r :: rs) = st := by
  simp [scanRows, h]

theorem scanRows_eq_foldl (st : ScanSt) (rs : List Row)
    (h : ∀ r ∈ rs, rowIsStop r = false) :
    scanRows st rs = rs.foldl procRow st := by
  induction rs generalizing st with
  | nil => rfl
  | cons r rs ih =>
    have hr := h r (List.mem_cons_self r rs)
    simp [scanRows, hr, List.foldl_cons,
      ih (procRow st r) (fun r' hr' => h r' (List.mem_cons_of_mem r hr'))]

theorem scanRows_append_stop (st : ScanSt) (rs1 rs2 : List Row) (stopRow : Row)
    (h1 : ∀ r ∈ rs1, rowIsStop r = false) (hs : rowIsStop stopRow = true) :
    scanRows st (rs1 ++ stopRow :: rs2) = scanRows st rs1 := by
  induction rs1 generalizing st with
  | nil => simpa using scanRows_stop_cons st stopRow rs2 hs
  | cons r rs ih =>
    have hr := h1 r (List.mem_cons_self r rs)
    simp [scanRows, hr, ih (procRow st r) (fun r' hr' => h1 r' (List.mem_cons_of_mem r hr'))]

theorem procRow_lwr (st : ScanSt) (r : Row)
    (h4 : ¬ r.cells.length < 4) (hpos : stripT (r.cells.getD 1 []) = txt "LWR") :
    procRow st r = { st with lwr := some ((playersOf r).headD []) } := by
  unfold procRow
  rw [if_neg h4, hpos]
  rw [if_neg (show txt "LWR" = txt "QB" -> False by decide),
    if_neg (show txt "LWR" = txt "RB" -> False by decide),
    if_neg (show txt "LWR" = txt "TE" -> False by decide), if_pos rfl]

theorem procRow_rwr (st : ScanSt) (r : Row)
    (h4 : ¬ r.cells.length < 4) (hpos : stripT (r.cells.getD 1 []) = txt "RWR") :
    procRow st r = { st with rwr := some ((playersOf r).headD []) } := by
  unfold procRow
  rw [if_neg h4, hpos]
  rw [if_neg (show txt "RWR" = txt "QB" -> False by decide),
    if_neg (show txt "RWR" = txt "RB" -> False by decide),
    if_neg (show txt "RWR" = txt "TE" -> False by decide),
    if_neg (show txt "RWR" = txt "LWR" -> False by decide), if_pos rfl]

theorem procRow_swr (st : ScanSt) (r : Row)
    (h4 : ¬ r.cells.length < 4) (hpos : stripT (r.cells.getD 1 []) = txt "SWR") :
    procRow st r = { st with swr := some ((playersOf r).headD []) } := by
  unfold procRow
  rw [if_neg h4, hpos]
  rw [if_neg (show txt "SWR" = txt "QB" -> False by decide),
    if_neg (show txt "SWR" = txt "RB" -> False by decide),
    if_neg (show txt "SWR" = txt "TE" -> False by decide),
    if_neg (show txt "SWR" = txt "LWR" -> False by decide),
    if_neg (show txt "SWR" = txt "RWR" -> False by decide), if_pos rfl]

/-! ## Claim C1 -/

/-- A three-row document whose offense section has two `LWR` rows: first
player `A`, then player `B`. -/
def c1doc : List Row :=
  [⟨some (txt "Offense - Tigers"), [], []⟩,
   ⟨none, [txt "TT", txt "LWR", txt "11", txt "x"], [txt "A"]⟩,
   ⟨none, [txt "TT", txt "LWR", txt "12", txt "x"], [txt "B"]⟩]

/-- C1 is false as stated: in `c1doc` the earliest `LWR` row carries name
`"A"`, but the starter recorded after the scan — and hence the resulting
wide-receiver list — comes from the LATER row (`"B"`): later rows with the
same code do overwrite. -/
theorem c1_counterexample :
    parse_team_offense c1doc (txt "Tigers")
        = { qb := [], rb := [], wr := [txt "B"], te := [] } ∧
      txt "B" ≠ txt "A" := by
  constructor
  · decide
  · decide

/-- C1 amended: for rows with position code `LWR`/`RWR`/`SWR` the first
extracted name on the row is recorded as the left/right/slot starter, and
this is LAST-wins: scanning any stop-free row sequence that ends in such a
row leaves the starter taken from that final row, whatever earlier rows (in
particular earlier rows with the same code) assigned. -/
theorem c1_last_wins (rs : List Row) (r : Row)
    (hrs : ∀ r' ∈ rs, rowIsStop r' = false)
    (hr : rowIsStop r = false) (h4 : ¬ r.cells.length < 4) :
    (stripT (r.cells.getD 1 []) = txt "LWR" →
      (scanRows initSt (rs ++ [r])).lwr = some ((playersOf r).headD [])) ∧
    (stripT (r.cells.getD 1 []) = txt "RWR" →
      (scanRows initSt (rs ++ [r])).rwr = some ((playersOf r).headD [])) ∧
    (stripT (r.cells.getD 1 []) = txt "SWR" →
      (scanRows initSt (rs ++ [r])).swr = some ((playersOf r).headD [])) := by
  have hall : ∀ r' ∈ rs ++ [r], rowIsStop r' = false := by
    intro r' hm
    rcases List.mem_append.1 hm with h | h
    · exact hrs r' h
    · simp only [List.mem_singleton] at h; subst h; exact hr
  have hfold : scanRows initSt (rs ++ [r])
      = procRow ((rs).foldl procRow initSt) r := by
    rw [scanRows_eq_foldl _ _ hall, List.foldl_append, List.foldl_cons, List.foldl_nil]
  refine ⟨fun hpos => ?_, fun hpos => ?_, fun hpos => ?_⟩
  · rw [hfold, procRow_lwr _ _ h4 hpos]
  · rw [hfold, procRow_rwr _ _ h4 hpos]
  · rw [hfold, procRow_swr _ _ h4 hpos]

/-- Witness for `c1_last_wins` on `c1doc`'s two data rows. -/
theorem c1_last_wins_witness :
    (scanRows initSt
      ([⟨none, [txt "TT", txt "LWR", txt "11", txt "x"], [txt "A"]⟩] ++
        [⟨none, [txt "TT", txt "LWR", txt "12", txt "x"], [txt "B"]⟩])).lwr
      = some (txt "B") := by
  have h := c1_last_wins
    [⟨none, [txt "TT", txt "LWR", txt "11", txt "x"], [txt "A"]⟩]
    ⟨none, [txt "TT", txt "LWR", txt "12", txt "x"], [txt "B"]⟩
    (by decide) (by decide) (by decide)
  exact (h.1 (by decide)).trans (by decide)

/-! ## Claim C2 -/

/-- C2 is false as stated: `safe_slug` keeps periods (its character class is
`[A-Za-z0-9._-]`), so `"L.V."` maps to `"L.V."`, not to `"L_V"`. -/
theorem c2_counterexample :
    safe_slug (txt "L.V.") = txt "L.V." ∧ txt "L.V." ≠ txt "L_V" := by
  constructor
  · decide
  · decide

/-- C2 amended: the period is inside the allowed class `[A-Za-z0-9._-]`, so
`safe_slug` leaves `"L.V."` unchanged (every character of it is in the
class); only runs of characters outside that class collapse to one
underscore, and leading/trailing underscores are stripped. -/
theorem c2_slug_keeps_periods :
    safe_slug (txt "L.V.") = txt "L.V." ∧ (txt "L.V.").all slugOK = true := by
  constructor
  · decide
  · decide

/-! ## Claim C6 -/

/-- C6: the section parser is a total function; when no section-header cell
both begins with `"offense - "` (case-insensitively) and contains the team
name, it returns the all-empty `OffenseDepth`. -/
theorem c6_not_found (doc : List Row) (team : Txt)
    (h : ∀ r ∈ doc, matchRow team r = false) :
    parse_team_offense doc team = emptyOff := by
  have hnone : findOffense team doc = none := by
    induction doc with
    | nil => rfl
    | cons r rs ih =>
      have hr := h r (List.mem_cons_self r rs)
      have ih2 := ih (fun r' hr' => h r' (List.mem_cons_of_mem r hr'))
      cases hh : r.hdr with
      | none => simpa [findOffense, hh] using ih2
      | some t =>
        have : isOffenseFor team t = false := by simpa [matchRow, hh] using hr
        simpa [findOffense, hh, this] using ih2
  simp [parse_team_offense, hnone]

/-- Witness for `c6_not_found`: a document whose only header is a defense
header does not match team `"X"`. -/
theorem c6_not_found_witness :
    parse_team_offense [⟨some (txt "Defense - X"), [], []⟩, ⟨none, [], []⟩]
      (txt "X") = emptyOff :=
  c6_not_found _ _ (by decide)

/-! ## Claim C7 -/

/-- C7: the normalizer maps `"HARRISON JR., MARVIN 24/1"` to
`"Marvin Harrison Jr."` — the digit-bearing token `"24/1"` is dropped, the
string is split at the first comma and reassembled as remainder followed by
last-name part, then title-cased. -/
theorem c7_harrison :
    normalizeN (txt "HARRISON JR., MARVIN 24/1") = txt "Marvin Harrison Jr." := by
  decide

/-! ## Claim C10 -/

/-- C10: `_bold_lines` with count 3, as the renderer calls it for the
running-back block, always yields exactly 3 lines — the input truncated to 3
and padded with empties, each line wrapped in `<b>…</b>` — whatever the
length of the input list. -/
theorem c10_bold_lines (off : OffenseDepth) :
    (bold_lines_list off.rb 3).length = 3 ∧
    bold_lines_list off.rb 3 =
      (off.rb.take 3 ++ List.replicate (3 - off.rb.length) ([] : Txt)).map
        (fun nm => txt "<b>" ++ nm ++ txt "</b>") ∧
    away_rb_block off = List.intercalate [10] (bold_lines_list off.rb 3) := by
  refine ⟨?_, ?_, rfl⟩
  · simp [bold_lines_list]
    omega
  · unfold bold_lines_list
    apply List.map_congr_left
    intro nm _
    by_cases h : nm.isEmpty
    · have : nm = [] := by simpa [List.isEmpty_iff] using h
      subst this
      simp [h]
      decide
    · simp [h]

/-! ## Claim C3 -/

/-- C3: with the empty string as team name the parser selects the first
section whose header begins with `"offense - "` (the empty string is a
substring of every header) and returns that section's parse; consequently a
game side whose team code is not one of the 32 `TEAM_NAME` keys (so that
the batch routine looks the code up to the empty string) is rendered with
the offense data of the document's first team. -/
theorem c3_unknown_code_first_team (doc pre post : List Row) (r : Row) (code : Txt)
    (hsplit : doc = pre ++ r :: post)
    (hpre : ∀ r' ∈ pre, offHdrAny r' = false)
    (hr : offHdrAny r = true)
    (hcode : TEAM_NAME.find? (fun p => p.1 == code) = none) :
    teamFullName code = [] ∧
    offenseForCode doc code = finishWR (scanRows initSt post) := by
  have hteam : teamFullName code = [] := by
    simp [teamFullName, hcode]
  refine ⟨hteam, ?_⟩
  have hpre2 : ∀ r' ∈ pre, matchRow [] r' = false := by
    intro r' hm
    rw [matchRow_nil_team]
    exact hpre r' hm
  have hrm : matchRow [] r = true := by
    rw [matchRow_nil_team]
    exact hr
  have hfind : findOffense [] doc = some post := by
    rw [hsplit, findOffense_append_no_match [] pre _ hpre2,
      findOffense_cons_match [] r post hrm]
  simp [offenseForCode, hteam, parse_team_offense, hfind]

/-- Witness for `c3_unknown_code_first_team`: code `"XX"` is not in the
table, and the document's first offense section (Tigers) is what gets
parsed. -/
theorem c3_witness :
    offenseForCode
      [⟨some (txt "Offense - Tigers"), [], []⟩,
       ⟨none, [txt "TT", txt "QB", txt "11", txt "x"], [txt "Q"]⟩]
      (txt "XX")
      = finishWR (scanRows initSt
          [⟨none, [txt "TT", txt "QB", txt "11", txt "x"], [txt "Q"]⟩]) := by
  have h := c3_unknown_code_first_team
    [⟨some (txt "Offense - Tigers"), [], []⟩,
     ⟨none, [txt "TT", txt "QB", txt "11", txt "x"], [txt "Q"]⟩]
    [] [⟨none, [txt "TT", txt "QB", txt "11", txt "x"], [txt "Q"]⟩]
    ⟨some (txt "Offense - Tigers"), [], []⟩ (txt "XX")
    rfl (by simp) (by decide) (by decide)
  exact h.2

/-! ## Claim C4 -/

/-- C4: the scan over the rows following a matched offense header visits
sibling rows in order and stops exactly at the first row whose header cell
begins with one of the five stop markers (or at the end of the document):
with `rs1` stop-free, the parse result equals the fold of the row processor
over `rs1` alone — the stop row and everything after it contribute
nothing.  Termination on finite documents is inherent: `scanRows` is a
total structural recursion over the row list. -/
theorem c4_stop_at_marker (team : Txt) (pre rs1 rs2 : List Row) (hrow stopRow : Row)
    (hpre : ∀ r' ∈ pre, matchRow team r' = false)
    (hhr : matchRow team hrow = true)
    (hrs1 : ∀ r' ∈ rs1, rowIsStop r' = false)
    (hstop : rowIsStop stopRow = true) :
    parse_team_offense (pre ++ hrow :: (rs1 ++ stopRow :: rs2)) team
        = finishWR (rs1.foldl procRow initSt) ∧
    scanRows initSt (rs1 ++ stopRow :: rs2) = rs1.foldl procRow initSt := by
  have hscan : scanRows initSt (rs1 ++ stopRow :: rs2) = rs1.foldl procRow initSt := by
    rw [scanRows_append_stop initSt rs1 rs2 stopRow hrs1 hstop,
      scanRows_eq_foldl initSt rs1 hrs1]
  have hfind : findOffense team (pre ++ hrow :: (rs1 ++ stopRow :: rs2))
      = some (rs1 ++ stopRow :: rs2) := by
    rw [findOffense_append_no_match team pre _ hpre, findOffense_cons_match team _ _ hhr]
  refine ⟨?_, hscan⟩
  simp [parse_team_offense, hfind, hscan]

/-- Witness for `c4_stop_at_marker`: one data row, then a defense header
with a trailing row; the trailing rows contribute nothing. -/
theorem c4_witness :
    parse_team_offense
      [⟨some (txt "Offense - Tigers"), [], []⟩,
       ⟨none, [txt "TT", txt "QB", txt "1", txt "x"], [txt "Q"]⟩,
       ⟨some (txt "Defense - Tigers"), [], []⟩,
       ⟨none, [txt "TT", txt "QB", txt "9", txt "x"], [txt "ZZZ"]⟩]
      (txt "Tigers")
      = finishWR ([(⟨none, [txt "TT", txt "QB", txt "1", txt "x"], [txt "Q"]⟩ : Row)].foldl
          procRow initSt) := by
  have h := c4_stop_at_marker (txt "Tigers")
    []
    [⟨none, [txt "TT", txt "QB", txt "1", txt "x"], [txt "Q"]⟩]
    [⟨none, [txt "TT", txt "QB", txt "9", txt "x"], [txt "ZZZ"]⟩]
    ⟨some (txt "Offense - Tigers"), [], []⟩
    ⟨some (txt "Defense - Tigers"), [], []⟩
    (by simp) (by decide) (by decide) (by decide)
  exact h.1

/-! ## Claim C5 -/

/-- Modelled on the spec's wording for the post-scan WR override: the
captured starters, in left/right/slot order, with unset (or empty) ones
dropped. -/
def spec_starters (st : ScanSt) : List Txt :=
  (match st.lwr with | some w => if w.isEmpty then [] else [w] | none => []) ++
  (match st.rwr with | some w => if w.isEmpty then [] else [w] | none => []) ++
  (match st.swr with | some w => if w.isEmpty then [] else [w] | none => [])

/-- Overwrite the WR list of a scan state (standing for whatever a bare-`WR`
fallback row set earlier in the scan). -/
def setWr (st : ScanSt) (old : List Txt) : ScanSt :=
  { st with res := { st.res with wr := old } }

theorem spec_starters_le_three (st : ScanSt) : (spec_starters st).length ≤ 3 := by
  unfold spec_starters
  cases st.lwr <;> cases st.rwr <;> cases st.swr <;> simp <;> split_ifs <;> simp

theorem filter_starters (st : ScanSt) :
    (([st.lwr, st.rwr, st.swr].filterMap id).filter (fun w => !w.isEmpty))
      = spec_starters st := by
  unfold spec_starters
  cases st.lwr <;> cases st.rwr <;> cases st.swr <;>
    simp only [List.filterMap_cons, List.filterMap_nil, id, List.filter_cons,
      List.filter_nil] <;>
    (try split_ifs) <;> simp_all

/-- C5: if at least one of the left/right/slot starters was captured as a
non-empty name, the returned WR list is exactly the captured starters in
left/right/slot order with unset ones dropped (hence at most 3), and it
supersedes whatever WR list was previously set: the result does not depend
on the pre-existing list at all. -/
theorem c5_wr_override (st : ScanSt) (old : List Txt)
    (h : (truthy st.lwr || truthy st.rwr || truthy st.swr) = true) :
    (finishWR (setWr st old)).wr = spec_starters st ∧
    (spec_starters st).length ≤ 3 := by
  refine ⟨?_, spec_starters_le_three st⟩
  have hne : spec_starters st ≠ [] := by
    rcases Bool.or_eq_true_iff.1 h with h1 | h2
    · rcases Bool.or_eq_true_iff.1 h1 with hl | hr
      · cases hl2 : st.lwr with
        | none => rw [hl2] at hl; simp [truthy] at hl
        | some w =>
          rw [hl2] at hl
          have : w.isEmpty = false := by simpa [truthy] using hl
          simp [spec_starters, hl2, this]
      · cases hr2 : st.rwr with
        | none => rw [hr2] at hr; simp [truthy] at hr
        | some w =>
          rw [hr2] at hr
          have : w.isEmpty = false := by simpa [truthy] using hr
          simp [spec_starters, hr2, this]
    · cases hs2 : st.swr with
      | none => rw [hs2] at h2; simp [truthy] at h2
      | some w =>
        rw [hs2] at h2
        have : w.isEmpty = false := by simpa [truthy] using h2
        simp [spec_starters, hs2, this]
  have hfs : (([st.lwr, st.rwr, st.swr].filterMap id).filter (fun w => !w.isEmpty))
      = spec_starters st := by
    have := filter_starters st
    simpa [setWr] using this
  unfold finishWR setWr
  simp only [hfs]
  rw [if_pos (by simpa [List.isEmpty_iff] using hne)]
  simp [List.take_of_length_le (spec_starters_le_three st)]

/-- Witness for `c5_wr_override`: end-to-end on a section with a bare `WR`
fallback row first, then `LWR`/`RWR`/`SWR` rows `A`, `B`, `C`: the result
is exactly `[A, B, C]`. -/
theorem c5_witness :
    parse_team_offense
      [⟨some (txt "Offense - Tigers"), [], []⟩,
       ⟨none, [txt "TT", txt "WR", txt "1", txt "x"], [txt "X", txt "Y"]⟩,
       ⟨none, [txt "TT", txt "LWR", txt "2", txt "x"], [txt "A"]⟩,
       ⟨none, [txt "TT", txt "RWR", txt "3", txt "x"], [txt "B"]⟩,
       ⟨none, [txt "TT", txt "SWR", txt "4", txt "x"], [txt "C"]⟩]
      (txt "Tigers")
      = { qb := [], rb := [], wr := [txt "A", txt "B", txt "C"], te := [] } ∧
    (finishWR (setWr ⟨emptyOff, some (txt "A"), some (txt "B"), some (txt "C")⟩
        [txt "X", txt "Y"])).wr = [txt "A", txt "B", txt "C"] := by
  constructor
  · decide
  · have h := c5_wr_override ⟨emptyOff, some (txt "A"), some (txt "B"), some (txt "C")⟩
      [txt "X", txt "Y"] (by decide)
    exact h.1.trans (by decide)

/-! ## Claim C9 -/

/-- The spec's description of the displayed year: season-start year plus one
for January and February, unchanged otherwise. -/
def displayYearSpec (seasonYear m : Nat) : Nat :=
  if m = 1 ∨ m = 2 then seasonYear + 1 else seasonYear

/-- C9: whenever the date label parses (weekday prefix stripped, exactly two
tokens, month abbreviation in the `MONTHS` table, numeric day) and the
resulting date is one `datetime` accepts, the kickoff line displays
`displayYearSpec` as its year: season-start year plus one exactly for
January and February, the season-start year itself for all other months. -/
theorem c9_year_rollover (label t : Txt) (y m d : Nat)
    (hl : label.isEmpty = false)
    (hp : kickParse label = some (m, d))
    (hv : (1 ≤ displayYearSpec y m && displayYearSpec y m ≤ 9999 && 1 ≤ d &&
      d ≤ daysInMonth (displayYearSpec y m) m) = true) :
    format_kickoff label t y =
      dayName (weekdayIdx (displayYearSpec y m) m d) ++ txt ", " ++ monthName m ++
        txt " " ++ natTxt d ++ txt ", " ++ natTxt (displayYearSpec y m) ++
        txt ", " ++ fmtTime t ++ txt " ET" ∧
    ((m = 1 ∨ m = 2) → displayYearSpec y m = y + 1) ∧
    (¬(m = 1 ∨ m = 2) → displayYearSpec y m = y) := by
  have hy : (if m = 1 || m = 2 then y + 1 else y) = displayYearSpec y m := by
    unfold displayYearSpec
    by_cases h : m = 1 ∨ m = 2
    · rw [if_pos h, if_pos (by simpa using h)]
    · rw [if_neg h, if_neg (by simpa using h)]
  refine ⟨?_, fun h => by simp [displayYearSpec, h], fun h => by simp [displayYearSpec, h]⟩
  unfold format_kickoff
  rw [hl]
  simp only [Bool.false_eq_true, if_false, hp, hy, hv, if_true]

/-- Witness for `c9_year_rollover`: a January label with season-start year
2025 displays 2026. -/
theorem c9_witness :
    format_kickoff (txt "SUN, JAN 11") (txt "1:00PM") 2025
      = txt "Sunday, January 11, 2026, 1:00 PM ET" := by
  have h := c9_year_rollover (txt "SUN, JAN 11") (txt "1:00PM") 2025 1 11
    (by decide) (by decide) (by decide)
  exact h.1.trans (by decide)

/-! ## Claim C8: idempotence machinery.

Two code-point sequences are *similar* when they agree up to letter case
(`map lowerN` equal).  The output of `_normalize_player` is similar to a
canonical whitespace form of its input; a second application goes through
the same branches and reproduces the string.  -/

theorem lowerN_lowerN (a : Nat) : lowerN (lowerN a) = lowerN a := by
  unfold lowerN isUpperN
  split_ifs <;>
    simp only [Bool.and_eq_true, decide_eq_true_eq, Bool.and_eq_false_iff,
      decide_eq_false_iff_not, Bool.not_eq_true] at * <;>
    omega

theorem lowerN_upperN (a : Nat) : lowerN (upperN a) = lowerN a := by
  unfold lowerN upperN isUpperN isLowerN
  split_ifs <;>
    simp only [Bool.and_eq_true, decide_eq_true_eq, Bool.and_eq_false_iff,
      decide_eq_false_iff_not, Bool.not_eq_true] at * <;>
    omega

theorem simC_space {a b : Nat} (h : lowerN a = lowerN b) : isSpaceN a = isSpaceN b := by
  rw [Bool.eq_iff_iff]
  unfold lowerN isUpperN at h
  unfold isSpaceN
  simp only [Bool.or_eq_true, decide_eq_true_eq]
  split_ifs at h <;> simp_all [Bool.and_eq_true, decide_eq_true_eq] <;> omega

theorem simC_alpha {a b : Nat} (h : lowerN a = lowerN b) : isAlphaN a = isAlphaN b := by
  rw [Bool.eq_iff_iff]
  unfold lowerN isUpperN at h
  unfold isAlphaN isUpperN isLowerN
  simp only [Bool.or_eq_true, Bool.and_eq_true, decide_eq_true_eq]
  split_ifs at h <;> simp_all <;> omega

theorem simC_digit {a b : Nat} (h : lowerN a = lowerN b) : isDigitN a = isDigitN b := by
  rw [Bool.eq_iff_iff]
  unfold lowerN isUpperN at h
  unfold isDigitN
  simp only [Bool.and_eq_true, decide_eq_true_eq]
  split_ifs at h <;> simp_all <;> omega

theorem simC_upper {a b : Nat} (h : lowerN a = lowerN b) : upperN a = upperN b := by
  unfold lowerN isUpperN at h
  unfold upperN isLowerN
  split_ifs at h ⊢ <;>
    simp only [Bool.and_eq_true, decide_eq_true_eq, Bool.and_eq_false_iff,
      decide_eq_false_iff_not, Bool.not_eq_true] at * <;>
    omega

theorem simC_nonalpha {a b : Nat} (h : lowerN a = lowerN b)
    (ha : isAlphaN a = false) : a = b := by
  unfold lowerN isUpperN at h
  unfold isAlphaN isUpperN isLowerN at ha
  simp only [Bool.or_eq_false_iff, Bool.and_eq_false_iff] at ha
  split_ifs at h <;>
    simp only [Bool.and_eq_true, decide_eq_true_eq, Bool.and_eq_false_iff,
      decide_eq_false_iff_not, Bool.not_eq_true] at * <;>
    omega

theorem simC_eq_target {a b x : Nat} (h : lowerN a = lowerN b)
    (hx : isAlphaN x = false) : a = x ↔ b = x := by
  constructor
  · intro rfl1
    subst rfl1
    exact (simC_nonalpha h hx).symm
  · intro rfl1
    subst rfl1
    exact (simC_nonalpha h.symm hx).symm

/-- Case-insensitive similarity of code-point sequences. -/
def simT (l l' : Txt) : Prop := l.map lowerN = l'.map lowerN

theorem simT_refl (l : Txt) : simT l l := rfl

theorem simT_symm {l l' : Txt} (h : simT l l') : simT l' l := h.symm

theorem simT_trans {a b c : Txt} (h1 : simT a b) (h2 : simT b c) : simT a c :=
  h1.trans h2

theorem simT_length {l l' : Txt} (h : simT l l') : l.length = l'.length := by
  have := congrArg List.length h
  simpa using this

theorem simT_nil_right {l : Txt} (h : simT l []) : l = [] := by
  cases l with
  | nil => rfl
  | cons a t => simp [simT] at h

theorem simT_cons_inv {a : Nat} {l m : Txt} (h : simT (a :: l) m) :
    ∃ b m', m = b :: m' ∧ lowerN a = lowerN b ∧ simT l m' := by
  cases m with
  | nil => simp [simT] at h
  | cons b m' =>
    simp only [simT, List.map_cons, List.cons.injEq] at h
    exact ⟨b, m', rfl, h.1, h.2⟩

theorem titleGo_congr {l : Txt} : ∀ {l' : Txt} (pc : Bool),
    simT l l' → titleGo pc l = titleGo pc l' := by
  induction l with
  | nil =>
    intro l' pc h
    rw [simT_nil_right (simT_symm h)]
  | cons a l ih =>
    intro l' pc h
    obtain ⟨b, m, rfl, h1, h2⟩ := simT_cons_inv h
    simp only [titleGo]
    rw [simC_alpha h1]
    by_cases hb : isAlphaN b = true
    · simp only [hb, if_true]
      cases pc <;> simp [h1, simC_upper h1, ih true h2]
    · have hb2 : isAlphaN b = false := by simpa using hb
      have hab : a = b := simC_nonalpha (a := a) (b := b) h1 (by rwa [simC_alpha h1])
      simp [hb2, hab, ih false h2]

theorem titleGo_sim (pc : Bool) (l : Txt) : simT (titleGo pc l) l := by
  induction l generalizing pc with
  | nil => rfl
  | cons a l ih =>
    simp only [titleGo]
    by_cases ha : isAlphaN a = true
    · simp only [ha, if_true, simT, List.map_cons]
      refine congrArg₂ _ ?_ (ih true)
      cases pc <;> simp [lowerN_lowerN, lowerN_upperN]
    · have ha2 : isAlphaN a = false := by simpa using ha
      simp only [ha2, Bool.false_eq_true, if_false, simT, List.map_cons]
      exact congrArg₂ _ rfl (ih false)

theorem fixMc_sim : ∀ (pw : Bool) (l : Txt), simT (fixMc pw l) l
  | _, [] => by simp [fixMc, simT]
  | _, [a] => by simp [fixMc, simT]
  | _, [a, b] => by simp [fixMc, simT]
  | pw, a :: b :: k :: rest => by
    by_cases hc : (!pw && a = 77 && b = 99 && isLowerN k) = true
    · have h2 := hc
      simp only [Bool.and_eq_true, decide_eq_true_eq] at h2
      obtain ⟨⟨⟨hpw, ha⟩, hb⟩, hk⟩ := h2
      simp only [fixMc, hc, if_true]
      simp only [simT, List.map_cons, ha, hb, lowerN_upperN]
      exact congrArg _ (congrArg _ (congrArg _ (fixMc_sim true rest)))
    · have hc2 : (!pw && a = 77 && b = 99 && isLowerN k) = false := by simpa using hc
      simp only [fixMc, hc2, Bool.false_eq_true, if_false]
      simp only [simT, List.map_cons]
      exact congrArg _ (fixMc_sim (isWordN a) (b :: k :: rest))

theorem fixMac_sim : ∀ (pw : Bool) (l : Txt), simT (fixMac pw l) l
  | _, [] => by simp [fixMac, simT]
  | _, [a] => by simp [fixMac, simT]
  | _, [a, b] => by simp [fixMac, simT]
  | _, [a, b, c] => by simp [fixMac, simT]
  | pw, a :: b :: c :: k :: rest => by
    by_cases hc : (!pw && a = 77 && b = 97 && c = 99 && isLowerN k) = true
    · have h2 := hc
      simp only [Bool.and_eq_true, decide_eq_true_eq] at h2
      obtain ⟨⟨⟨⟨hpw, ha⟩, hb⟩, hcc⟩, hk⟩ := h2
      simp only [fixMac, hc, if_true]
      simp only [simT, List.map_cons, ha, hb, hcc, lowerN_upperN]
      exact congrArg _ (congrArg _ (congrArg _ (congrArg _ (fixMac_sim true rest))))
    · have hc2 : (!pw && a = 77 && b = 97 && c = 99 && isLowerN k) = false := by simpa using hc
      simp only [fixMac, hc2, Bool.false_eq_true, if_false]
      simp only [simT, List.map_cons]
      exact congrArg _ (fixMac_sim (isWordN a) (b :: c :: k :: rest))

theorem fixO_sim : ∀ (pw : Bool) (l : Txt), simT (fixO pw l) l
  | _, [] => by simp [fixO, simT]
  | _, [a] => by simp [fixO, simT]
  | _, [a, b] => by simp [fixO, simT]
  | pw, a :: b :: k :: rest => by
    by_cases hc : (!pw && a = 79 && b = 39 && isLowerN k) = true
    · have h2 := hc
      simp only [Bool.and_eq_true, decide_eq_true_eq] at h2
      obtain ⟨⟨⟨hpw, ha⟩, hb⟩, hk⟩ := h2
      simp only [fixO, hc, if_true]
      simp only [simT, List.map_cons, ha, hb, lowerN_upperN]
      exact congrArg _ (congrArg _ (congrArg _ (fixO_sim true rest)))
    · have hc2 : (!pw && a = 79 && b = 39 && isLowerN k) = false := by simpa using hc
      simp only [fixO, hc2, Bool.false_eq_true, if_false]
      simp only [simT, List.map_cons]
      exact congrArg _ (fixO_sim (isWordN a) (b :: k :: rest))

/-- The composed title-and-fixes body of `_smart_title` is similar to its
input. -/
theorem fixes_sim (z : Txt) :
    simT (fixO false (fixMac false (fixMc false (titleT z)))) z :=
  simT_trans (fixO_sim false _)
    (simT_trans (fixMac_sim false _)
      (simT_trans (fixMc_sim false _) (titleGo_sim false z)))

/-- A well-formed token: non-empty and whitespace-free (what `str.split`
produces). -/
def goodTok (t : Txt) : Prop := t ≠ [] ∧ ∀ x ∈ t, isSpaceN x = false

def goodToks (ts : List Txt) : Prop := ∀ t ∈ ts, goodTok t

theorem splitSp_nil : splitSp [] = [] := rfl

theorem splitSp_cons (c : Nat) (l : Txt) :
    splitSp (c :: l) =
      (if isSpaceN c then [] :: splitSp l
       else
         match splitSp l with
         | [] => [[c]]
         | t :: ts => (c :: t) :: ts) := rfl

theorem splitSp_single {t : Txt} (h : goodTok t) : splitSp t = [t] := by
  obtain ⟨hne, hsf⟩ := h
  induction t with
  | nil => exact absurd rfl hne
  | cons x t ih =>
    rw [splitSp_cons, if_neg (by simp [hsf x (List.mem_cons_self x t)])]
    cases t with
    | nil => rfl
    | cons y t' =>
      rw [ih (by simp) (fun z hz => hsf z (List.mem_cons_of_mem x hz))]

theorem splitSp_tok_append {t : Txt} (r : Txt) (h : goodTok t) :
    splitSp (t ++ 32 :: r) = t :: splitSp r := by
  obtain ⟨hne, hsf⟩ := h
  induction t with
  | nil => exact absurd rfl hne
  | cons x t ih =>
    rw [List.cons_append, splitSp_cons,
      if_neg (by simp [hsf x (List.mem_cons_self x t)])]
    cases t with
    | nil =>
      have h32 : splitSp (([] : Txt) ++ 32 :: r) = [] :: splitSp r := by
        rw [List.nil_append, splitSp_cons, if_pos (by decide)]
      rw [h32]
    | cons y t' =>
      rw [ih (by simp) (fun z hz => hsf z (List.mem_cons_of_mem x hz))]

theorem tokensT_joinSp : ∀ {ts : List Txt}, goodToks ts → tokensT (joinSp ts) = ts
  | [], _ => rfl
  | [t], h => by
    have hg := h t (List.mem_cons_self t [])
    unfold joinSp tokensT
    rw [splitSp_single hg]
    have ht : t.isEmpty = false := List.isEmpty_eq_false.2 hg.1
    simp [List.filter, ht]
  | t :: t2 :: ts, h => by
    have hg := h t (List.mem_cons_self t (t2 :: ts))
    have hrest : goodToks (t2 :: ts) := fun u hu => h u (List.mem_cons_of_mem t hu)
    have hjoin : joinSp (t :: t2 :: ts) = t ++ 32 :: joinSp (t2 :: ts) := rfl
    unfold tokensT
    rw [hjoin, splitSp_tok_append _ hg, List.filter_cons]
    have ht : (!t.isEmpty) = true := by
      cases t with
      | nil => exact absurd rfl hg.1
      | cons a b => rfl
    rw [if_pos ht]
    have := tokensT_joinSp hrest
    unfold tokensT at this
    rw [this]

theorem splitSp_mem_spacefree {l : Txt} :
    ∀ t ∈ splitSp l, ∀ x ∈ t, isSpaceN x = false ∧ x ∈ l := by
  induction l with
  | nil => intro t ht; simp [splitSp_nil] at ht
  | cons c l ih =>
    intro t ht x hx
    rw [splitSp_cons] at ht
    by_cases hc : isSpaceN c = true
    · rw [if_pos hc] at ht
      rcases List.mem_cons.1 ht with h1 | h1
      · subst h1; simp at hx
      · obtain ⟨h2, h3⟩ := ih t h1 x hx
        exact ⟨h2, List.mem_cons_of_mem c h3⟩
    · rw [if_neg hc] at ht
      cases hs : splitSp l with
      | nil =>
        rw [hs] at ht
        rcases List.mem_cons.1 ht with h1 | h1
        · subst h1
          rcases List.mem_singleton.1 hx with rfl
          exact ⟨by simpa using hc, List.mem_cons_self x l⟩
        · simp at h1
      | cons s ss =>
        rw [hs] at ht
        rcases List.mem_cons.1 ht with h1 | h1
        · subst h1
          rcases List.mem_cons.1 hx with rfl | h2
          · exact ⟨by simpa using hc, List.mem_cons_self x l⟩
          · obtain ⟨h3, h4⟩ := ih s (hs ▸ List.mem_cons_self s ss) x h2
            exact ⟨h3, List.mem_cons_of_mem c h4⟩
        · obtain ⟨h3, h4⟩ := ih t (hs ▸ List.mem_cons_of_mem s h1) x hx
          exact ⟨h3, List.mem_cons_of_mem c h4⟩

theorem tokensT_good (l : Txt) : goodToks (tokensT l) := by
  intro t ht
  unfold tokensT at ht
  have h1 := List.mem_filter.1 ht
  refine ⟨by simpa [List.isEmpty_iff] using h1.2, fun x hx => ?_⟩
  exact (splitSp_mem_spacefree t h1.1 x hx).1

theorem mem_tokensT {l : Txt} {t : Txt} (ht : t ∈ tokensT l) {x : Nat} (hx : x ∈ t) :
    x ∈ l := by
  unfold tokensT at ht
  exact (splitSp_mem_spacefree t (List.mem_filter.1 ht).1 x hx).2

theorem joinSp_cons_ne (t : Txt) (ts : List Txt) (h : t ≠ []) :
    ∃ x l', joinSp (t :: ts) = x :: l' ∧ x ∈ t := by
  cases t with
  | nil => exact absurd rfl h
  | cons a t' =>
    cases ts with
    | nil => exact ⟨a, t', rfl, List.mem_cons_self a t'⟩
    | cons t2 ts' =>
      exact ⟨a, t' ++ 32 :: joinSp (t2 :: ts'), rfl, List.mem_cons_self a t'⟩

theorem joinSp_ne_nil {ts : List Txt} (hne : ts ≠ []) (hg : goodToks ts) :
    joinSp ts ≠ [] := by
  cases ts with
  | nil => exact absurd rfl hne
  | cons t ts' =>
    obtain ⟨x, l', heq, _⟩ := joinSp_cons_ne t ts' (hg t (List.mem_cons_self t ts')).1
    rw [heq]
    simp

theorem mem_joinSp : ∀ {ts : List Txt} {x : Nat}, x ∈ joinSp ts →
    x = 32 ∨ ∃ t, t ∈ ts ∧ x ∈ t
  | [], x, h => by simp [joinSp] at h
  | [t], x, h => Or.inr ⟨t, List.mem_cons_self t [], h⟩
  | t :: t2 :: ts, x, h => by
    have : joinSp (t :: t2 :: ts) = t ++ 32 :: joinSp (t2 :: ts) := rfl
    rw [this] at h
    rcases List.mem_append.1 h with h1 | h1
    · exact Or.inr ⟨t, List.mem_cons_self t (t2 :: ts), h1⟩
    · rcases List.mem_cons.1 h1 with h2 | h2
      · exact Or.inl h2
      · rcases mem_joinSp h2 with h3 | ⟨u, hu, hxu⟩
        · exact Or.inl h3
        · exact Or.inr ⟨u, List.mem_cons_of_mem t hu, hxu⟩

theorem joinSp_reverse_head : ∀ {ts : List Txt}, ts ≠ [] → goodToks ts →
    ∃ x l', (joinSp ts).reverse = x :: l' ∧ isSpaceN x = false
  | [], h, _ => absurd rfl h
  | [t], _, hg => by
    have hgt := hg t (List.mem_cons_self t [])
    cases hr : t.reverse with
    | nil =>
      exact absurd (by simpa using congrArg List.reverse hr) hgt.1
    | cons x l' =>
      have hx : x ∈ t := by
        rw [← List.mem_reverse, hr]
        exact List.mem_cons_self x l'
      exact ⟨x, l', by simpa [joinSp] using hr, hgt.2 x hx⟩
  | t :: t2 :: ts, _, hg => by
    have hrest : goodToks (t2 :: ts) := fun u hu => hg u (List.mem_cons_of_mem t hu)
    obtain ⟨x, l', heq, hx⟩ := @joinSp_reverse_head (t2 :: ts) (by simp) hrest
    have hj : joinSp (t :: t2 :: ts) = t ++ 32 :: joinSp (t2 :: ts) := rfl
    refine ⟨x, l' ++ 32 :: t.reverse, ?_, hx⟩
    rw [hj, List.reverse_append, List.reverse_cons, List.append_assoc, heq]
    rfl

theorem stripT_nil : stripT [] = [] := rfl

theorem stripT_joinSp {ts : List Txt} (hg : goodToks ts) :
    stripT (joinSp ts) = joinSp ts := by
  cases hts : ts with
  | nil => simp [joinSp, stripT_nil]
  | cons t ts' =>
    subst hts
    obtain ⟨x, l', heq, hx⟩ := joinSp_cons_ne t ts' (hg t (List.mem_cons_self t ts')).1
    have hxs : isSpaceN x = false := (hg t (List.mem_cons_self t ts')).2 x hx
    obtain ⟨y, m, hrev, hy⟩ := @joinSp_reverse_head (t :: ts') (by simp) hg
    unfold stripT
    rw [heq, List.dropWhile_cons, if_neg (by simp [hxs]), ← heq, hrev,
      List.dropWhile_cons, if_neg (by simp [hy]), ← hrev, List.reverse_reverse]

theorem mem_stripT {l : Txt} {x : Nat} (h : x ∈ stripT l) : x ∈ l := by
  unfold stripT at h
  rw [List.mem_reverse] at h
  have h2 := (List.dropWhile_sublist (l := (List.dropWhile isSpaceN l).reverse) isSpaceN).mem h
  rw [List.mem_reverse] at h2
  exact (List.dropWhile_sublist (l := l) isSpaceN).mem h2

theorem keepToks_sub : ∀ {ts : List Txt} {t : Txt}, t ∈ keepToks ts → t ∈ ts
  | [], t, h => by simp [keepToks] at h
  | u :: ts, t, h => by
    unfold keepToks at h
    by_cases hb : badTok u = true
    · rw [if_pos hb] at h; simp at h
    · rw [if_neg hb] at h
      rcases List.mem_cons.1 h with h1 | h1
      · exact h1 ▸ List.mem_cons_self u ts
      · exact List.mem_cons_of_mem u (keepToks_sub h1)

theorem keepToks_elems_ok : ∀ {ts : List Txt} {t : Txt}, t ∈ keepToks ts →
    badTok t = false
  | [], t, h => by simp [keepToks] at h
  | u :: ts, t, h => by
    unfold keepToks at h
    by_cases hb : badTok u = true
    · rw [if_pos hb] at h; simp at h
    · rw [if_neg hb] at h
      rcases List.mem_cons.1 h with h1 | h1
      · subst h1; simpa using hb
      · exact keepToks_elems_ok h1

theorem keepToks_all : ∀ {ts : List Txt}, (∀ t ∈ ts, badTok t = false) →
    keepToks ts = ts
  | [], _ => rfl
  | u :: ts, h => by
    unfold keepToks
    rw [if_neg (by simp [h u (List.mem_cons_self u ts)])]
    rw [keepToks_all (fun t ht => h t (List.mem_cons_of_mem u ht))]

theorem keepToks_head_bad {t : Txt} (ts : List Txt) (h : badTok t = true) :
    keepToks (t :: ts) = [] := by
  unfold keepToks
  rw [if_pos h]

theorem badTok_single (a : Nat) :
    badTok [a] = (isDigitN a || (a == 47) || (a == 94)) := by
  rw [Bool.eq_iff_iff]
  simp [badTok]
  tauto

theorem badTok_cons_cons (a c : Nat) (l : Txt) :
    badTok (a :: c :: l) = ((isDigitN a || (a == 47)) || badTok (c :: l)) := by
  rw [Bool.eq_iff_iff]
  simp only [badTok, List.any_cons, List.contains_cons, List.getLast?_cons_cons,
    Bool.or_eq_true, beq_iff_eq]
  tauto

theorem simC_beq_target {a b x : Nat} (h : lowerN a = lowerN b)
    (hx : isAlphaN x = false) : (a == x) = (b == x) := by
  rw [Bool.eq_iff_iff]
  simp only [beq_iff_eq]
  exact simC_eq_target h hx

theorem badTok_sim : ∀ {t t' : Txt}, simT t t' → badTok t = badTok t'
  | [], t', h => by rw [simT_nil_right (simT_symm h)]
  | a :: l, t', h => by
    obtain ⟨b, m, rfl, h1, h2⟩ := simT_cons_inv h
    cases l with
    | nil =>
      have hm : m = [] := simT_nil_right (simT_symm h2)
      subst hm
      rw [badTok_single, badTok_single, simC_digit h1,
        simC_beq_target h1 (by decide), simC_beq_target h1 (by decide)]
    | cons c l' =>
      obtain ⟨d, m', rfl, _, _⟩ := simT_cons_inv h2
      rw [badTok_cons_cons, badTok_cons_cons, simC_digit h1,
        simC_beq_target h1 (by decide), badTok_sim h2]

theorem simT_mem {y z : Txt} (h : simT y z) {x : Nat} (hx : x ∈ y) :
    ∃ c ∈ z, lowerN x = lowerN c := by
  induction y generalizing z with
  | nil => simp at hx
  | cons a l ih =>
    obtain ⟨b, m, rfl, h1, h2⟩ := simT_cons_inv h
    rcases List.mem_cons.1 hx with rfl | h3
    · exact ⟨b, List.mem_cons_self b m, h1⟩
    · obtain ⟨c, hc, hlc⟩ := ih h2 h3
      exact ⟨c, List.mem_cons_of_mem b hc, hlc⟩

theorem simT_not_mem_target {y z : Txt} (h : simT y z) {x : Nat}
    (hx : isAlphaN x = false) (hz : ¬ x ∈ z) : ¬ x ∈ y := by
  intro hy
  obtain ⟨c, hc, hlc⟩ := simT_mem h hy
  have : x = c := by
    have := simC_eq_target (a := c) (b := x) hlc.symm hx
    exact (this.2 rfl).symm
  exact hz (this ▸ hc)

theorem simT_spacefree {t' t : Txt} (h : simT t' t)
    (hs : ∀ x ∈ t, isSpaceN x = false) : ∀ x ∈ t', isSpaceN x = false := by
  intro x hx
  obtain ⟨c, hc, hlc⟩ := simT_mem h hx
  rw [simC_space hlc]
  exact hs c hc

theorem simT_goodTok {t' t : Txt} (h : simT t' t) (hg : goodTok t) : goodTok t' := by
  refine ⟨?_, simT_spacefree h hg.2⟩
  intro hnil
  subst hnil
  exact hg.1 (simT_nil_right (simT_symm h))

/-- Decomposition: anything similar to a join of good tokens is itself a
join of good tokens, pairwise similar. -/
theorem sim_joinSp_decomp : ∀ (ts : List Txt), goodToks ts →
    ∀ {y : Txt}, simT y (joinSp ts) →
    ∃ ts', y = joinSp ts' ∧ List.Forall₂ simT ts' ts ∧ goodToks ts'
  | [], _, y, h => by
    refine ⟨[], ?_, List.Forall₂.nil, by intro t ht; simp at ht⟩
    simpa [joinSp] using simT_nil_right h
  | [t], hg, y, h => by
    have hgt := hg t (List.mem_cons_self t [])
    have hyt : simT y t := h
    refine ⟨[y], rfl, ?_, ?_⟩
    · exact List.forall₂_cons.2 ⟨hyt, List.Forall₂.nil⟩
    · intro u hu
      rcases List.mem_singleton.1 hu with rfl
      exact simT_goodTok hyt hgt
  | t :: t2 :: ts, hg, y, h => by
    have hgt := hg t (List.mem_cons_self t (t2 :: ts))
    have hrest : goodToks (t2 :: ts) := fun u hu => hg u (List.mem_cons_of_mem t hu)
    have hj : joinSp (t :: t2 :: ts) = t ++ 32 :: joinSp (t2 :: ts) := rfl
    rw [simT, hj, List.map_append] at h
    obtain ⟨y1, y2, rfl, hm1, hm2⟩ := List.map_eq_append_iff.1 h
    have h2 : simT y2 (32 :: joinSp (t2 :: ts)) := hm2
    obtain ⟨c, y3, hy2, hc, h3⟩ := simT_cons_inv (simT_symm h2)
    subst hy2
    have hc32 : c = 32 := by
      have := simC_eq_target (a := c) (b := 32) (x := 32) hc.symm (by decide)
      exact this.2 rfl
    subst hc32
    obtain ⟨ts', rfl, hf, hgood⟩ := sim_joinSp_decomp (t2 :: ts) hrest (simT_symm h3)
    have hts' : ts' ≠ [] := by
      intro hnil
      subst hnil
      cases hf
    refine ⟨y1 :: ts', ?_, ?_, ?_⟩
    · cases ts' with
      | nil => exact absurd rfl hts'
      | cons u us => rfl
    · exact List.forall₂_cons.2 ⟨hm1, hf⟩
    · intro u hu
      rcases List.mem_cons.1 hu with rfl | h4
      · exact simT_goodTok hm1 hgt
      · exact hgood u h4

theorem repNbsp_no160 (l : Txt) : ¬ 160 ∈ repNbsp l := by
  intro h
  unfold repNbsp at h
  obtain ⟨n, _, hn⟩ := List.mem_map.1 h
  by_cases h160 : n = 160
  · rw [if_pos h160] at hn; exact absurd hn (by decide)
  · rw [if_neg h160] at hn; exact h160 hn

theorem repNbsp_mem {l : Txt} {x : Nat} (h : x ∈ repNbsp l) : x = 32 ∨ x ∈ l := by
  unfold repNbsp at h
  obtain ⟨n, hn, he⟩ := List.mem_map.1 h
  by_cases h160 : n = 160
  · rw [if_pos h160] at he; exact Or.inl he.symm
  · rw [if_neg h160] at he; subst he; exact Or.inr hn

theorem repNbsp_id {l : Txt} (h : ¬ 160 ∈ l) : repNbsp l = l := by
  unfold repNbsp
  have : ∀ n ∈ l, (if n = 160 then 32 else n) = id n := by
    intro n hn
    rw [if_neg (by rintro rfl; exact h hn)]
    rfl
  rw [List.map_congr_left this, List.map_id]

theorem commaSplitReorder_id {l : Txt} (h : ¬ 44 ∈ l) : commaSplitReorder l = l := by
  unfold commaSplitReorder
  rw [if_neg (by simp [h])]

theorem squeeze_joinSp {ts : List Txt} (hg : goodToks ts) :
    squeeze (joinSp ts) = joinSp ts := by
  unfold squeeze
  rw [tokensT_joinSp hg]

theorem smartTitle_canon {ts : List Txt} (hg : goodToks ts) (hne : ts ≠ []) :
    smartTitle (joinSp ts)
      = fixO false (fixMac false (fixMc false (titleT (joinSp ts)))) := by
  unfold smartTitle
  rw [stripT_joinSp hg,
    if_neg (by simp [List.isEmpty_eq_false.2 (joinSp_ne_nil hne hg)])]

theorem forall2_badTok_transfer : ∀ {ts' ts : List Txt}, List.Forall₂ simT ts' ts →
    (∀ t ∈ ts, badTok t = false) → ∀ u ∈ ts', badTok u = false := by
  intro ts' ts hf
  induction hf with
  | nil => intro _ u hu; simp at hu
  | cons h1 h2 ih =>
    intro hall u hu
    rcases List.mem_cons.1 hu with rfl | h3
    · rw [badTok_sim h1]
      exact hall _ (List.mem_cons_self _ _)
    · exact ih (fun v hv => hall v (List.mem_cons_of_mem _ hv)) u h3

/-- The fixpoint lemma behind idempotence: the output of `_smart_title`'s
title-and-fixes body on a canonical (joined-good-tokens) string without
commas or non-breaking spaces is a fixed point of `_normalize_player`,
provided the keep-scan of the original either kept every token or stopped
at the very first one. -/
theorem normalizeN_fix (ts : List Txt) (hg : goodToks ts) (hne : ts ≠ [])
    (h44 : ¬ 44 ∈ joinSp ts) (h160 : ¬ 160 ∈ joinSp ts)
    (hk : (∀ t ∈ ts, badTok t = false) ∨ ∃ t ts2, ts = t :: ts2 ∧ badTok t = true) :
    normalizeN (fixO false (fixMac false (fixMc false (titleT (joinSp ts)))))
      = fixO false (fixMac false (fixMc false (titleT (joinSp ts)))) := by
  set z := joinSp ts with hz
  set y := fixO false (fixMac false (fixMc false (titleT z))) with hy
  have hsim : simT y z := fixes_sim z
  obtain ⟨ts', hyj, hf, hgood2⟩ := sim_joinSp_decomp ts hg hsim
  have hy44 : ¬ 44 ∈ y := simT_not_mem_target hsim (by decide) h44
  have hy160 : ¬ 160 ∈ y := simT_not_mem_target hsim (by decide) h160
  have hts2 : ts' ≠ [] := by
    intro hnil
    subst hnil
    cases hf
    exact hne rfl
  have hyne : y ≠ [] := by
    rw [hyj]
    exact joinSp_ne_nil hts2 hgood2
  have hrep : repNbsp y = y := repNbsp_id hy160
  have hstr : stripT y = y := by
    rw [hyj] ; exact stripT_joinSp hgood2
  have htokens : tokensT y = ts' := by
    rw [hyj] ; exact tokensT_joinSp hgood2
  have hyEmpty : y.isEmpty = false := List.isEmpty_eq_false.2 hyne
  have hcomma : commaSplitReorder y = y := commaSplitReorder_id hy44
  have hsq : squeeze y = y := by
    rw [hyj] ; exact squeeze_joinSp hgood2
  have htitle : titleT y = titleT z := titleGo_congr false hsim
  have hsmart : smartTitle y = y := by
    unfold smartTitle
    rw [hstr, if_neg (by simp [hyEmpty])]
    rw [show titleT y = titleT z from htitle]
  have hmain : smartTitle (squeeze (commaSplitReorder y)) = y := by
    rw [hcomma, hsq, hsmart]
  show normalizeN y = y
  simp only [normalizeN, hrep, hstr, htokens, hyEmpty, Bool.false_eq_true, if_false]
  rcases hk with hall | ⟨t, ts3, hts, hbad⟩
  · have hall2 : ∀ u ∈ ts', badTok u = false := forall2_badTok_transfer hf hall
    rw [keepToks_all hall2, ← hyj, hstr, if_neg (by simp [hyEmpty])]
    exact hmain
  · subst hts
    obtain ⟨t', ts3', rfl⟩ : ∃ t' ts3', ts' = t' :: ts3' := by
      cases ts' with
      | nil => exact absurd rfl hts2
      | cons u us => exact ⟨u, us, rfl⟩
    have hpair := (List.forall₂_cons.1 hf).1
    have hbad' : badTok t' = true := by
      rw [badTok_sim hpair]
      exact hbad
    rw [keepToks_head_bad _ hbad']
    rw [show joinSp ([] : List Txt) = [] from rfl, stripT_nil]
    rw [if_pos (by decide)]
    exact hmain

/-- C8: the name normalizer is idempotent on inputs containing no comma, no
decimal digit and no slash: a second application reproduces the first's
output exactly. -/
theorem c8_idempotent (raw : Txt)
    (hc : ¬ 44 ∈ raw) (hd : ∀ x ∈ raw, isDigitN x = false) (hsl : ¬ 47 ∈ raw) :
    normalizeN (normalizeN raw) = normalizeN raw := by
  have hnil : normalizeN ([] : Txt) = [] := by decide
  have hs44 : ¬ 44 ∈ stripT (repNbsp raw) := by
    intro h
    rcases repNbsp_mem (mem_stripT h) with h1 | h1
    · exact absurd h1 (by decide)
    · exact hc h1
  cases hE : (stripT (repNbsp raw)).isEmpty with
  | true =>
    have h1 : normalizeN raw = [] := by
      simp only [normalizeN, hE, if_true]
    rw [h1]
    exact hnil
  | false =>
    set s := stripT (repNbsp raw) with hsdef
    set toks := tokensT s with htoksdef
    have hgood : goodToks toks := by rw [htoksdef]; exact tokensT_good s
    have hmemtoks : ∀ {x : Nat} {t : Txt}, t ∈ toks → x ∈ t → x ∈ s := by
      intro x t ht hx
      exact mem_tokensT (htoksdef ▸ ht) hx
    have h160s : ¬ 160 ∈ s := fun h => repNbsp_no160 raw (mem_stripT h)
    cases hkeep : keepToks toks with
    | nil =>
      have hform : normalizeN raw = smartTitle (squeeze (commaSplitReorder s)) := by
        simp only [normalizeN, ← hsdef, ← htoksdef, hE, Bool.false_eq_true, if_false,
          hkeep]
        rw [show joinSp ([] : List Txt) = [] from rfl, stripT_nil]
        rw [if_pos (by decide)]
      rw [commaSplitReorder_id hs44] at hform
      have hsq : squeeze s = joinSp toks := by
        unfold squeeze
        rw [← htoksdef]
      rw [hsq] at hform
      cases htk : toks with
      | nil =>
        rw [htk] at hform
        have hz : normalizeN raw = [] := by
          rw [hform]
          decide
        rw [hz]
        exact hnil
      | cons t ts2 =>
        have hbad : badTok t = true := by
          by_contra hb
          rw [htk] at hkeep
          unfold keepToks at hkeep
          rw [if_neg hb] at hkeep
          simp at hkeep
        rw [htk] at hform
        have hgood2 : goodToks (t :: ts2) := htk ▸ hgood
        have h44j : ¬ 44 ∈ joinSp (t :: ts2) := by
          intro h
          rcases mem_joinSp h with h1 | ⟨u, hu, hxu⟩
          · exact absurd h1 (by decide)
          · exact hs44 (hmemtoks (htk ▸ hu) hxu)
        have h160j : ¬ 160 ∈ joinSp (t :: ts2) := by
          intro h
          rcases mem_joinSp h with h1 | ⟨u, hu, hxu⟩
          · exact absurd h1 (by decide)
          · exact h160s (hmemtoks (htk ▸ hu) hxu)
        rw [smartTitle_canon hgood2 (by simp)] at hform
        rw [hform]
        exact normalizeN_fix (t :: ts2) hgood2 (by simp) h44j h160j
          (Or.inr ⟨t, ts2, rfl, hbad⟩)
    | cons k ks =>
      have hkeepgood : goodToks (keepToks toks) := fun t ht => hgood t (keepToks_sub ht)
      have hkeepne : keepToks toks ≠ [] := by
        rw [hkeep]
        simp
      have hstrk : stripT (joinSp (keepToks toks)) = joinSp (keepToks toks) :=
        stripT_joinSp hkeepgood
      have hkne : (joinSp (keepToks toks)).isEmpty = false :=
        List.isEmpty_eq_false.2 (joinSp_ne_nil hkeepne hkeepgood)
      have h44k : ¬ 44 ∈ joinSp (keepToks toks) := by
        intro h
        rcases mem_joinSp h with h1 | ⟨u, hu, hxu⟩
        · exact absurd h1 (by decide)
        · exact hs44 (hmemtoks (keepToks_sub hu) hxu)
      have h160k : ¬ 160 ∈ joinSp (keepToks toks) := by
        intro h
        rcases mem_joinSp h with h1 | ⟨u, hu, hxu⟩
        · exact absurd h1 (by decide)
        · exact h160s (hmemtoks (keepToks_sub hu) hxu)
      have hform : normalizeN raw
          = smartTitle (squeeze (commaSplitReorder (joinSp (keepToks toks)))) := by
        simp only [normalizeN, ← hsdef, ← htoksdef, hE, Bool.false_eq_true, if_false,
          hstrk, hkne]
      rw [commaSplitReorder_id h44k, squeeze_joinSp hkeepgood,
        smartTitle_canon hkeepgood hkeepne] at hform
      rw [hform]
      exact normalizeN_fix (keepToks toks) hkeepgood hkeepne h44k h160k
        (Or.inl (fun t ht => keepToks_elems_ok ht))

/-- Witness for `c8_idempotent` on a clean two-word name. -/
theorem c8_witness :
    normalizeN (normalizeN (txt "John Smith")) = normalizeN (txt "John Smith") :=
  c8_idempotent (txt "John Smith") (by decide) (by decide) (by decide)
